import Mathlib

/-!
Verification of the forwarding-report resolver and the value quoter of the
http-header-value package, shallowly embedded from the TypeScript sources
src/headers/http-forward-rep.ts and the hthvQuote source file.
-/

set_option maxRecDepth 4096

/-- Header item model, from hthv-item / hthv-partial: an optional name, a
value, a name-keyed parameter index `p` (an association map with JS object
semantics) and the ordered parameter list `pl`.  The marker, tag and
extension fields are never read by the code under verification and are
omitted. -/
inductive HthvItem where
  | mk (n : Option String) (v : String) (p : List (String × HthvItem)) (pl : List HthvItem)
deriving Repr

def HthvItem.n : HthvItem → Option String
  | .mk n _ _ _ => n

def HthvItem.v : HthvItem → String
  | .mk _ v _ _ => v

def HthvItem.p : HthvItem → List (String × HthvItem)
  | .mk _ _ p _ => p

def HthvItem.pl : HthvItem → List HthvItem
  | .mk _ _ _ pl => pl

/-- JS object property assignment on a name-keyed item map: an existing key
is updated in place, a new key is appended. -/
def recSetItem : List (String × HthvItem) → String → HthvItem → List (String × HthvItem)
  | [], k, it => [(k, it)]
  | (k', it') :: rest, k, it =>
    if k' = k then (k', it) :: rest else (k', it') :: recSetItem rest k it

/-- JS object property read on a name-keyed item map. -/
def pval (p : List (String × HthvItem)) (k : String) : Option HthvItem :=
  (p.find? (fun q => q.1 = k)).map (fun q => q.2)

/-- Left-to-right, last-write-wins fold of a parameter list into a
name-keyed index, as sequential JS construction performs it. -/
def paramIndex (pl : List HthvItem) : List (String × HthvItem) :=
  pl.foldl (fun m it => match it.n with
    | some nm => recSetItem m nm it
    | none => m) []

/-- Modelled from the spec: the hthvItem constructor of
hthv-partial.impl.ts is not under src/.  Per section 4.1 of the spec it
fills a canonical empty parameter list and index when both are omitted and
derives the missing side by the fold rule when only one is given. -/
def hthvItem (n : Option String) (v : String)
    (pm : Option (List (String × HthvItem))) (plm : Option (List HthvItem)) : HthvItem :=
  match pm, plm with
  | some p, some pl => .mk n v p pl
  | some p, none => .mk n v p (p.map (fun q => q.2))
  | none, some pl => .mk n v (paramIndex pl) pl
  | none, none => .mk n v [] []

/-- Shorthand for a named item with no parameters, as built by the
resolver and by hthvXForwardedItems. -/
def hthvItemNV (n : String) (v : String) : HthvItem :=
  hthvItem (some n) v none none

/-- The model invariant of the item data model: the parameter index is the
left-to-right last-write-wins fold of the parameter list. -/
def itemInvariant (it : HthvItem) : Prop :=
  it.p = paramIndex it.pl

/-- Trust mask bit: the current record may be used.  Value forced by the
shift in http-forward-rep.ts line 138 and by the spec, section 4.3. -/
def TrustCurrent : Nat := 1

/-- Trust mask bit: the next more distant record inherits trust. -/
def TrustPrevious : Nat := 2

/-- Modelled from the spec: http-forward-trust.ts is not under src/.
Section 4.3 specifies the boundary only: a pure function from a record and
a hop distance to a two-bit trust mask, next to the xForwarded flag that
HttpForwardRep.parse consults to disable the legacy header fallback. -/
structure HttpForwardTrust where
  xForwarded : Option Bool
  checker : HthvItem → Nat → Nat

/-- Modelled from the spec: HttpForwardTrust.by turns a trust
configuration into the per-hop checker function the resolver calls. -/
def HttpForwardTrust.toChecker (t : HttpForwardTrust) : HthvItem → Nat → Nat :=
  t.checker

/-- Connection defaults, from HttpForwardRep.Defaults. -/
structure Defaults where
  «by» : String
  «for» : String
  host : String
  proto : String

/-- A forwarding report: a plain JS record from field name to value. -/
abbrev FwdRep := List (String × String)

/-- JS object property assignment on a report. -/
def recSet : FwdRep → String → String → FwdRep
  | [], k, v => [(k, v)]
  | (k', v') :: rest, k, v =>
    if k' = k then (k', v) :: rest else (k', v') :: recSet rest k v

/-- JS object property read on a report. -/
def recGet (r : FwdRep) (k : String) : Option String :=
  (r.find? (fun q => q.1 = k)).map (fun q => q.2)

/-- The JS expression `pval item.p k |>.v || previous`: falls back to the
previous value when the parameter is absent or its value is empty. -/
def orDefault (o : Option HthvItem) (prev : String) : String :=
  match o with
  | some it => if it.v = "" then prev else it.v
  | none => prev

/-- The mutable loop state of HttpForwardRep.by: the four accumulated
trusted field values, the currently trusted record and the current trust
flag. -/
structure WalkState where
  trustedBy : String
  trustedFor : String
  trustedHost : String
  trustedProto : String
  trusted : HthvItem
  flag : Nat

/-- The trust flag computed for one hop, http-forward-rep.ts line 138:
the policy-computed mask ORed with the TrustPrevious bit of the previous
hop shifted into the TrustCurrent position. -/
def stepFlag (check : HthvItem → Nat → Nat) (s : WalkState) (idx : Nat) (item : HthvItem) : Nat :=
  check item (idx + 1) ||| ((s.flag &&& TrustPrevious) >>> 1)

/-- The state after accepting one hop: each required field is overwritten
by the corresponding parameter value of the hop when present and
non-empty, and the hop becomes the trusted record. -/
def stepState (check : HthvItem → Nat → Nat) (s : WalkState) (idx : Nat) (item : HthvItem) : WalkState :=
  { trustedBy := orDefault (pval item.p "by") s.trustedBy
    trustedFor := orDefault (pval item.p "for") s.trustedFor
    trustedHost := orDefault (pval item.p "host") s.trustedHost
    trustedProto := orDefault (pval item.p "proto") s.trustedProto
    trusted := item
    flag := stepFlag check s idx item }

/-- The trust walk of HttpForwardRep.by, lines 133 to 151: the list passed
here is the item list reversed, so the nearest hop comes first; the walk
stops at the first hop whose flag lacks the TrustCurrent bit. -/
def walk (check : HthvItem → Nat → Nat) : WalkState → Nat → List HthvItem → WalkState
  | s, _, [] => s
  | s, idx, item :: rest =>
    if stepFlag check s idx item &&& TrustCurrent = 0 then s
    else walk check (stepState check s idx item) (idx + 1) rest

/-- Number of hops the walk accepts before it stops. -/
def walkCount (check : HthvItem → Nat → Nat) : WalkState → Nat → List HthvItem → Nat
  | _, _, [] => 0
  | s, idx, item :: rest =>
    if stepFlag check s idx item &&& TrustCurrent = 0 then 0
    else walkCount check (stepState check s idx item) (idx + 1) rest + 1

/-- The synthetic host parameter built from the defaults, line 122. -/
def lastHostItem (d : Defaults) : HthvItem :=
  hthvItemNV "host" d.host

/-- The synthetic proto parameter built from the defaults, line 123. -/
def lastProtoItem (d : Defaults) : HthvItem :=
  hthvItemNV "proto" d.proto

/-- The synthetic hop-distance-0 record built from the defaults,
lines 124 to 129. -/
def syntheticRecord (d : Defaults) : HthvItem :=
  hthvItem (some "for") d.«for»
    (some [("host", lastHostItem d), ("proto", lastProtoItem d)])
    (some [lastHostItem d, lastProtoItem d])

/-- The initial walk state, lines 116 to 131: field accumulators seeded
from the defaults, the synthetic record trusted, and its flag computed by
calling the policy at hop distance 0. -/
def resolveStart (d : Defaults) (check : HthvItem → Nat → Nat) : WalkState :=
  { trustedBy := d.«by»
    trustedFor := d.«for»
    trustedHost := d.host
    trustedProto := d.proto
    trusted := syntheticRecord d
    flag := check (syntheticRecord d) 0 }

/-- The flatten loop over the trusted record parameter list,
lines 155 to 159: each named parameter is copied into the report. -/
def flattenPl (r : FwdRep) (pl : List HthvItem) : FwdRep :=
  pl.foldl (fun r it => match it.n with
    | some nm => if nm = "" then r else recSet r nm it.v
    | none => r) r

/-- The flatten step of HttpForwardRep.by, lines 153 to 170: named
parameters of the trusted record, then its own name and value pair, then
the four required fields unconditionally overwritten with the accumulated
values. -/
def flattenItem (it : HthvItem) (b f h pr : String) : FwdRep :=
  let r := flattenPl [] it.pl
  let r := match it.n with
    | some nm => if nm = "" then r else recSet r nm it.v
    | none => r
  recSet (recSet (recSet (recSet r "by" b) "for" f) "host" h) "proto" pr

def flatten (s : WalkState) : FwdRep :=
  flattenItem s.trusted s.trustedBy s.trustedFor s.trustedHost s.trustedProto

/-- HttpForwardRep.by: the trust chain resolver.  The source walks the
item list from its last element to its first, which the embedding renders
as a head-first walk over the reversed list. -/
def HttpForwardRep.by (items : List HthvItem) (d : Defaults) (trust : HttpForwardTrust) : FwdRep :=
  let check := trust.toChecker
  flatten (walk check (resolveStart d check) 0 items.reverse)

/-- Number of real hops the resolver accepts for a given input. -/
def acceptedCount (items : List HthvItem) (d : Defaults) (trust : HttpForwardTrust) : Nat :=
  walkCount trust.toChecker (resolveStart d trust.toChecker) 0 items.reverse

/-- A header value is either a single string or an iterable of strings. -/
inductive HVal where
  | single (s : String)
  | multi (l : List String)

/-- The request headers read by HttpForwardRep.parse. -/
structure Headers where
  forwarded : Option HVal
  xForwardedFor : Option HVal
  xForwardedHost : Option HVal
  xForwardedProto : Option HVal

/-- JS truthiness of an optional header value: absent values and the empty
single string are falsy; an iterable is an object and always truthy. -/
def truthy : Option HVal → Bool
  | none => false
  | some (.single s) => !(s = "")
  | some (.multi _) => true

/-- Whitespace as recognised around the commas of a trivial header list. -/
def isSpaceB (c : Char) : Bool :=
  c = ' ' || c = '\t' || c = '\n' || c = '\r'

def trimChars (l : List Char) : List Char :=
  ((l.dropWhile isSpaceB).reverse.dropWhile isSpaceB).reverse

/-- Comma splitting of one header value string. -/
def splitCommaAux (acc : List Char) : List Char → List (List Char)
  | [] => [acc.reverse]
  | c :: rest =>
    if c = ',' then acc.reverse :: splitCommaAux [] rest
    else splitCommaAux (c :: acc) rest

def splitCommaTrim (s : String) : List String :=
  (splitCommaAux [] s.data).map (fun l => String.mk (trimChars l))

/-- Modelled from the spec: hthv-parse-trivial.impl.ts is not under src/.
Section 6 specifies parseList as turning a value or multivalue into the
ordered list of comma-separated entries. -/
def hthvParseTrivial : Option HVal → List String
  | none => []
  | some (.single s) => splitCommaTrim s
  | some (.multi l) => l.foldl (fun acc s => acc ++ splitCommaTrim s) []

/-- Modelled from the spec: parseFirst returns the first entry of the
parsed list, or nothing when the value is absent. -/
def hthvParseFirstTrivial (v : Option HVal) : Option String :=
  match v with
  | none => none
  | some w => (hthvParseTrivial (some w)).head?

/-- The optional synthetic host or proto parameter of
hthvXForwardedItems, lines 227 and 228: built only when the parsed first
value is truthy. -/
def xfwParam (nm : String) (v : Option String) : Option HthvItem :=
  match v with
  | some s => if s = "" then none else some (hthvItemNV nm s)
  | none => none

/-- One synthetic item of hthvXForwardedItems, lines 232 to 247: name
`for`, the address as value, and the shared host and proto parameters
pushed into both the map and the list in the same order. -/
def xfwItem (hostP protoP : Option HthvItem) (v : String) : HthvItem :=
  hthvItem (some "for") v
    (some ((match hostP with | some h => [("host", h)] | none => []) ++
           (match protoP with | some pr => [("proto", pr)] | none => [])))
    (some ((match hostP with | some h => [h] | none => []) ++
           (match protoP with | some pr => [pr] | none => [])))

/-- hthvXForwardedItems, lines 215 to 250: the synthetic item list built
from the legacy X-Forwarded headers. -/
def hthvXForwardedItems (hs : Headers) : List HthvItem :=
  if truthy hs.xForwardedFor = false then []
  else
    (hthvParseTrivial hs.xForwardedFor).map
      (xfwItem (xfwParam "host" (hthvParseFirstTrivial hs.xForwardedHost))
               (xfwParam "proto" (hthvParseFirstTrivial hs.xForwardedProto)))

/-- The item list parsed from a present Forwarded header, lines 192 to
200: a single value is parsed directly, an iterable has each value parsed
and the results concatenated in order. -/
def forwardedItems (parser : String → List HthvItem) : Option HVal → List HthvItem
  | some (.single s) => parser s
  | some (.multi l) => l.foldl (fun acc s => acc ++ parser s) []
  | none => []

/-- The object spread of the defaults returned when the legacy fallback is
disabled, line 202. -/
def defaultsSpread (d : Defaults) : FwdRep :=
  [("by", d.«by»), ("for", d.«for»), ("host", d.host), ("proto", d.proto)]

/-- HttpForwardRep.parse, lines 182 to 208, parameterised over the grammar
parser collaborator hthvParse. -/
def HttpForwardRep.parse (parser : String → List HthvItem) (hs : Headers)
    (d : Defaults) (trust : HttpForwardTrust) : FwdRep :=
  if truthy hs.forwarded then
    HttpForwardRep.by (forwardedItems parser hs.forwarded) d trust
  else if trust.xForwarded = some false then
    defaultsSpread d
  else
    HttpForwardRep.by (hthvXForwardedItems hs) d trust

/-- Modelled from the spec: delimiters.impl.ts is not under src/.  The
delimiter set of the header grammar: the RFC 7230 delimiters, including
the backslash and the double quote. -/
def delimiters (c : Char) : Bool :=
  c = '(' || c = ')' || c = ',' || c = '/' || c = ':' || c = ';' ||
  c = '<' || c = '=' || c = '>' || c = '?' || c = '@' || c = '[' ||
  c = '\\' || c = ']' || c = '\x7b' || c = '\x7d' || c = '"'

/-- The quoting condition of hthvQuote: a control character, a delimiter,
or DEL forces the value to be quoted. -/
def quoteTrigger (c : Char) : Bool :=
  c.toNat ≤ 32 || delimiters c || c.toNat = 127

/-- A character that additionally requires escaping. -/
def escapable (c : Char) : Bool :=
  c = '\\' || c = '"'

/-- The scan loop of hthvQuote: `pre` is the already scanned prefix,
`esc` the lazily allocated escape buffer, `q` the quote flag.  On the
first escapable character the buffer is seeded with the scanned prefix;
afterwards escapable characters are appended with a leading backslash and
clean characters verbatim, while trigger characters that need no escaping
are only recorded in the quote flag. -/
def quoteScan (pre : List Char) (esc : Option (List Char)) (q : Bool) :
    List Char → Option (List Char) × Bool
  | [] => (esc, q)
  | c :: rest =>
    if quoteTrigger c then
      if escapable c then
        quoteScan (pre ++ [c]) (some ((esc.getD pre) ++ ['\\', c])) true rest
      else
        quoteScan (pre ++ [c]) esc true rest
    else
      match esc with
      | some e => quoteScan (pre ++ [c]) (some (e ++ [c])) q rest
      | none => quoteScan (pre ++ [c]) none q rest

/-- hthvQuote: empty input yields the quoted empty form; otherwise the
input is returned unchanged unless the scan raised the quote flag, in
which case the escape buffer, or the original string when no buffer was
allocated, is wrapped in double quotes. -/
def hthvQuote (s : String) : String :=
  if s = "" then "\"\""
  else if (quoteScan [] none false s.data).2 then
    String.mk ('"' :: ((quoteScan [] none false s.data).1.getD s.data) ++ ['"'])
  else s

/-- The quoted form the spec describes: the string wrapped in exactly one
pair of double quotes with every internal backslash and double quote
preceded by exactly one extra backslash. -/
def quoteSpecForm (s : String) : String :=
  String.mk ('"' :: (s.data.flatMap (fun c => if escapable c then ['\\', c] else [c])) ++ ['"'])

/-! Concrete inputs used by the counterexample and bug evaluations. -/

def scenarioDefaults : Defaults := ⟨"10.0.0.1", "10.0.0.2", "example.com", "http"⟩

/-- The single item of the fully trusted single hop scenario: name `for`,
value 203.0.113.5, with host and proto parameters. -/
def scenarioItem : HthvItem :=
  hthvItem (some "for") "203.0.113.5"
    (some [("host", hthvItemNV "host" "api.example.com"),
           ("proto", hthvItemNV "proto" "https")])
    (some [hthvItemNV "host" "api.example.com", hthvItemNV "proto" "https"])

/-- A policy that fully trusts hop distance 1 and nothing else. -/
def scenarioTrust : HttpForwardTrust := ⟨none, fun _ i => if i = 1 then 3 else 0⟩

/-- C1: evaluation of the resolver on the fully trusted single hop
scenario.  The claim expects the report field `for` to be 203.0.113.5,
the value of the trusted item itself; the code instead leaves `for` at
the defaults value 10.0.0.2, because the accumulation loop reads only the
`for` parameter of a hop, never its own name and value pair, and the
flatten step unconditionally overwrites the `for` entry written from the
item with the accumulated value. -/
theorem c1_single_hop_actual_report :
    HttpForwardRep.by [scenarioItem] scenarioDefaults scenarioTrust =
      [("host", "api.example.com"), ("proto", "https"),
       ("for", "10.0.0.2"), ("by", "10.0.0.1")] := by
  decide

/-- The headers of the legacy fallback scenario: no Forwarded header,
X-Forwarded-For and X-Forwarded-Proto present. -/
def legacyHeaders : Headers :=
  ⟨none, some (.single "198.51.100.9"), none, some (.single "https")⟩

/-- A policy that fully trusts the single resulting hop. -/
def legacyTrust : HttpForwardTrust := ⟨none, fun _ i => if i ≤ 1 then 3 else 0⟩

/-- C2: evaluation of parse on the legacy header fallback scenario.  The
claim expects the report field `for` to equal 198.51.100.9; the code
yields the defaults value 10.0.0.2, because hthvXForwardedItems encodes
each address as the name and value pair of a synthetic item while the
resolver only ever reads the `for` parameter and then overwrites the
flattened name and value entry.  The proto, by and host fields do match
the claim. -/
theorem c2_legacy_fallback_actual_report :
    HttpForwardRep.parse (fun _ => []) legacyHeaders scenarioDefaults legacyTrust =
      [("proto", "https"), ("for", "10.0.0.2"),
       ("by", "10.0.0.1"), ("host", "example.com")] := by
  decide

def distZeroDefaults : Defaults := ⟨"b0", "f0", "h0", "p0"⟩

def distZeroItem : HthvItem :=
  .mk (some "for") "client" [("host", hthvItemNV "host" "h1")] [hthvItemNV "host" "h1"]

/-- A policy returning no trust at every hop distance. -/
def distZeroPolA : HthvItem → Nat → Nat := fun _ _ => 0

/-- A policy returning no trust at every positive hop distance, and full
trust at the synthetic distance 0. -/
def distZeroPolB : HthvItem → Nat → Nat := fun _ i => if i = 0 then 3 else 0

/-- C3: the two policies agree at hop distance 1, the only real hop of the
input, and differ only at the synthetic hop distance 0 where the claim
says the policy is never consulted; yet the resolver returns different
reports, because line 130 of http-forward-rep.ts computes the trust mask
of the synthetic defaults record by calling the policy at distance 0, and
its TrustPrevious bit then decides whether trust propagates to hop 1. -/
theorem c3_distance_zero_policy_observable :
    distZeroPolA distZeroItem 1 = distZeroPolB distZeroItem 1 ∧
    HttpForwardRep.by [distZeroItem] distZeroDefaults ⟨none, distZeroPolA⟩ ≠
      HttpForwardRep.by [distZeroItem] distZeroDefaults ⟨none, distZeroPolB⟩ := by
  constructor
  · rfl
  · decide

/-- C4: on the empty item list the resolver returns, for every defaults
value and every trust policy, exactly the four required fields with the
defaults values and no extension field: the walk never runs, the
synthetic record is flattened, and every entry it contributes is
overwritten by the defaults-seeded accumulators. -/
theorem c4_empty_items_defaults (d : Defaults) (trust : HttpForwardTrust) :
    HttpForwardRep.by [] d trust =
      [("host", d.host), ("proto", d.proto), ("for", d.«for»), ("by", d.«by»)] := by
  rfl

/-- C7: the quoter fails the claimed escaping contract.  On the two
character input consisting of a double quote and a space the result is
neither the input nor the input wrapped in quotes with the internal
double quote escaped: the space is dropped, because once the escape
buffer exists the scan appends a character that triggers quoting without
requiring escaping to no buffer at all. -/
theorem c7_quote_drops_trigger_char :
    hthvQuote "\" " = "\"\\\"\"" ∧
    hthvQuote "\" " ≠ "" ∧
    hthvQuote "\" " ≠ "\" " ∧
    hthvQuote "\" " ≠ quoteSpecForm "\" " := by
  refine ⟨by decide, by decide, by decide, by decide⟩

/-- C10: a present but empty Forwarded header is treated exactly as an
absent one: for every parser collaborator, defaults, trust configuration
and other header values, parse returns the same report as with no
Forwarded header, taking the legacy fallback or defaults-copy branch and
never invoking the parser on the empty value. -/
theorem c10_empty_forwarded_as_absent (parser : String → List HthvItem)
    (d : Defaults) (trust : HttpForwardTrust) (xf xh xp : Option HVal) :
    HttpForwardRep.parse parser ⟨some (HVal.single ""), xf, xh, xp⟩ d trust =
      HttpForwardRep.parse parser ⟨none, xf, xh, xp⟩ d trust := by
  rfl

/-- The result shape of xfwParam: either absent or a named item with the
given key as name. -/
lemma xfwParam_cases (nm : String) (o : Option String) :
    xfwParam nm o = none ∨ ∃ s, xfwParam nm o = some (hthvItemNV nm s) := by
  rcases o with _ | s
  · exact Or.inl rfl
  · by_cases h : s = ""
    · exact Or.inl (by simp [xfwParam, h])
    · exact Or.inr ⟨s, by simp [xfwParam, h]⟩

lemma itemInvariant_of_mem_xfw (hs : Headers) (it : HthvItem)
    (h : it ∈ hthvXForwardedItems hs) : itemInvariant it := by
  unfold hthvXForwardedItems at h
  split at h
  · simp at h
  · simp only [List.mem_map] at h
    obtain ⟨v, _, rfl⟩ := h
    rcases xfwParam_cases "host" (hthvParseFirstTrivial hs.xForwardedHost) with hh | ⟨s, hh⟩ <;>
      rcases xfwParam_cases "proto" (hthvParseFirstTrivial hs.xForwardedProto) with hp | ⟨t, hp⟩ <;>
        rw [hh, hp] <;> rfl

/-- Every Header Item the verified core constructs itself: the synthetic
parameters and record built from the defaults inside HttpForwardRep.by,
the synthetic host and proto parameters of hthvXForwardedItems, and the
synthetic items it returns. -/
def coreConstructedItems (d : Defaults) (hs : Headers) : List HthvItem :=
  [lastHostItem d, lastProtoItem d, syntheticRecord d] ++
  (match xfwParam "host" (hthvParseFirstTrivial hs.xForwardedHost) with
    | some h => [h]
    | none => []) ++
  (match xfwParam "proto" (hthvParseFirstTrivial hs.xForwardedProto) with
    | some pr => [pr]
    | none => []) ++
  hthvXForwardedItems hs

/-- C9: every Header Item this core constructs satisfies the model
invariant: its parameter index equals the left-to-right last-write-wins
fold of its parameter list, so the index is derivable from the list. -/
theorem c9_constructed_items_invariant (d : Defaults) (hs : Headers) (it : HthvItem)
    (h : it ∈ coreConstructedItems d hs) : itemInvariant it := by
  simp only [coreConstructedItems, List.mem_append, List.mem_cons,
    List.mem_singleton, List.not_mem_nil, or_false] at h
  rcases h with (((rfl | rfl | rfl) | hp) | hp) | hx
  · rfl
  · rfl
  · rfl
  · rcases xfwParam_cases "host" (hthvParseFirstTrivial hs.xForwardedHost) with hh | ⟨s, hh⟩ <;>
      rw [hh] at hp
    · simp at hp
    · simp at hp; subst hp; rfl
  · rcases xfwParam_cases "proto" (hthvParseFirstTrivial hs.xForwardedProto) with hh | ⟨s, hh⟩ <;>
      rw [hh] at hp
    · simp at hp
    · simp at hp; subst hp; rfl
  · exact itemInvariant_of_mem_xfw hs it hx

/-- Witness for C9 at a concrete input: the synthetic host parameter built
from concrete defaults is among the constructed items and satisfies the
invariant. -/
theorem c9_witness :
    itemInvariant (lastHostItem ⟨"b", "f", "h", "p"⟩) :=
  c9_constructed_items_invariant ⟨"b", "f", "h", "p"⟩ ⟨none, none, none, none⟩ _
    (by simp [coreConstructedItems])

/-- The TrustPrevious bit of any mask, shifted into the TrustCurrent
position, is zero or one. -/
lemma trustPrev_shift (m : Nat) : (m &&& TrustPrevious) >>> 1 = 0 ∨ (m &&& TrustPrevious) >>> 1 = 1 := by
  have h : m &&& TrustPrevious = (m.testBit 1).toNat * 2 := by
    have h2 := Nat.and_two_pow m 1
    simpa [TrustPrevious] using h2
  rw [h, Nat.shiftRight_one]
  cases m.testBit 1 <;> simp

/-- C5: two hops, the nearer hop fully trusted by the policy, the farther
one not trusted directly; the TrustPrevious bit of the nearer hop forces
the TrustCurrent bit of the farther one, so the walk processes both and
exhausts, and the report is the flattening of hopA, the farther hop, with
the required fields accumulated through hopB and then hopA over the
defaults. -/
theorem c5_two_hop_propagation (d : Defaults) (trust : HttpForwardTrust)
    (hopA hopB : HthvItem)
    (hB : trust.checker hopB 1 = 3) (hA : trust.checker hopA 2 = 0) :
    HttpForwardRep.by [hopA, hopB] d trust =
      flattenItem hopA
        (orDefault (pval hopA.p "by") (orDefault (pval hopB.p "by") d.«by»))
        (orDefault (pval hopA.p "for") (orDefault (pval hopB.p "for") d.«for»))
        (orDefault (pval hopA.p "host") (orDefault (pval hopB.p "host") d.host))
        (orDefault (pval hopA.p "proto") (orDefault (pval hopB.p "proto") d.proto)) := by
  show flatten (walk trust.checker (resolveStart d trust.checker) 0 [hopB, hopA]) = _
  have e2 : stepFlag trust.checker
      (stepState trust.checker (resolveStart d trust.checker) 0 hopB) 1 hopA =
      trust.checker hopA 2 |||
        ((stepFlag trust.checker (resolveStart d trust.checker) 0 hopB &&& TrustPrevious) >>> 1) := rfl
  rcases trustPrev_shift ((resolveStart d trust.checker).flag) with hy | hy
  · have e1 : stepFlag trust.checker (resolveStart d trust.checker) 0 hopB = 3 := by
      simp only [stepFlag, Nat.zero_add, hB, hy, Nat.or_zero]
    rw [hA, e1] at e2
    simp only [walk]
    rw [if_neg (by rw [e1]; decide), if_neg (by rw [e2]; decide)]
    rfl
  · have e1 : stepFlag trust.checker (resolveStart d trust.checker) 0 hopB = 3 := by
      simp only [stepFlag, Nat.zero_add, hB, hy]
      decide
    rw [hA, e1] at e2
    simp only [walk]
    rw [if_neg (by rw [e1]; decide), if_neg (by rw [e2]; decide)]
    rfl

def c5Defaults : Defaults := ⟨"b0", "f0", "h0", "p0"⟩

def c5HopA : HthvItem :=
  .mk (some "for") "a" [("host", hthvItemNV "host" "ha")] [hthvItemNV "host" "ha"]

def c5HopB : HthvItem :=
  .mk (some "for") "b" [("host", hthvItemNV "host" "hb")] [hthvItemNV "host" "hb"]

def c5Trust : HttpForwardTrust := ⟨none, fun _ i => if i = 1 then 3 else 0⟩

/-- Witness for C5 at concrete hops: the policy trusts only hop distance
1, yet the report carries the host field of the farther hop. -/
theorem c5_witness :
    c5Trust.checker c5HopB 1 = 3 ∧ c5Trust.checker c5HopA 2 = 0 ∧
    HttpForwardRep.by [c5HopA, c5HopB] c5Defaults c5Trust =
      [("host", "ha"), ("for", "f0"), ("by", "b0"), ("proto", "p0")] :=
  ⟨rfl, rfl, c5_two_hop_propagation c5Defaults c5Trust c5HopA c5HopB rfl rfl⟩

lemma walkCount_le_length (c : HthvItem → Nat → Nat) (s : WalkState) (idx : Nat)
    (l : List HthvItem) : walkCount c s idx l ≤ l.length := by
  induction l generalizing s idx with
  | nil => simp [walkCount]
  | cons item rest ih =>
    simp only [walkCount, List.length_cons]
    split
    · simp
    · exact Nat.succ_le_succ (ih _ _)

/-- The walk never looks past the hop that stops it: truncating the input
to the accepted prefix leaves the final state unchanged. -/
lemma walk_eq_walk_take (c : HthvItem → Nat → Nat) (s : WalkState) (idx : Nat)
    (l : List HthvItem) :
    walk c s idx (l.take (walkCount c s idx l)) = walk c s idx l := by
  induction l generalizing s idx with
  | nil => simp [walkCount]
  | cons item rest ih =>
    simp only [walkCount]
    split
    · rename_i h
      simp [walk, h]
    · rename_i h
      simp only [List.take_succ_cons, walk]
      rw [if_neg h, if_neg h]
      exact ih _ _

/-- C6: the report depends only on the hops the walk actually processes:
dropping from the front of the item list, the most distant end, every
item beyond the accepted prefix yields an identical report. -/
theorem c6_truncation_invariance (items : List HthvItem) (d : Defaults)
    (trust : HttpForwardTrust) :
    HttpForwardRep.by (items.drop (items.length - acceptedCount items d trust)) d trust =
      HttpForwardRep.by items d trust := by
  have hk : acceptedCount items d trust ≤ items.length := by
    simpa [acceptedCount] using
      walkCount_le_length trust.toChecker (resolveStart d trust.toChecker) 0 items.reverse
  show flatten (walk trust.toChecker (resolveStart d trust.toChecker) 0
      (items.drop (items.length - acceptedCount items d trust)).reverse) =
    flatten (walk trust.toChecker (resolveStart d trust.toChecker) 0 items.reverse)
  rw [List.reverse_drop,
    show items.length - (items.length - acceptedCount items d trust) =
      acceptedCount items d trust from by omega]
  exact congrArg flatten
    (walk_eq_walk_take trust.toChecker (resolveStart d trust.toChecker) 0 items.reverse)

/-- Count of escapable characters in a character list. -/
def cntEsc (l : List Char) : Nat := l.countP (fun c => escapable c)

lemma cntEsc_append (a b : List Char) : cntEsc (a ++ b) = cntEsc a + cntEsc b :=
  List.countP_append _ _ _

lemma escapable_trigger (c : Char) (h : escapable c = true) : quoteTrigger c = true := by
  simp only [escapable, Bool.or_eq_true, decide_eq_true_eq] at h
  rcases h with rfl | rfl <;> decide

lemma quoteScan_q_true (l : List Char) : ∀ pre esc, (quoteScan pre esc true l).2 = true := by
  induction l with
  | nil => intro pre esc; rfl
  | cons c rest ih =>
    intro pre esc
    simp only [quoteScan]
    by_cases ht : quoteTrigger c = true
    · rw [if_pos ht]
      by_cases he : escapable c = true
      · rw [if_pos he]; exact ih _ _
      · rw [if_neg he]; exact ih _ _
    · rw [if_neg ht]
      cases esc with
      | some e => exact ih _ _
      | none => exact ih _ _

lemma quoteScan_q_of_trigger (l : List Char) : ∀ pre esc q,
    (∃ c ∈ l, quoteTrigger c = true) → (quoteScan pre esc q l).2 = true := by
  induction l with
  | nil =>
    rintro pre esc q ⟨c, hc, _⟩
    exact absurd hc (List.not_mem_nil c)
  | cons c rest ih =>
    rintro pre esc q ⟨x, hx, htx⟩
    simp only [quoteScan]
    by_cases ht : quoteTrigger c = true
    · rw [if_pos ht]
      by_cases he : escapable c = true
      · rw [if_pos he]; exact quoteScan_q_true _ _ _
      · rw [if_neg he]; exact quoteScan_q_true _ _ _
    · rw [if_neg ht]
      have hxr : x ∈ rest := by
        rcases List.mem_cons.mp hx with rfl | hr
        · exact absurd htx ht
        · exact hr
      cases esc with
      | some e => exact ih _ _ _ ⟨x, hxr, htx⟩
      | none => exact ih _ _ _ ⟨x, hxr, htx⟩

lemma quoteScan_clean (l : List Char) : ∀ pre,
    (∀ c ∈ l, quoteTrigger c = false) → quoteScan pre none false l = (none, false) := by
  induction l with
  | nil => intro pre _; rfl
  | cons c rest ih =>
    intro pre h
    have hc : quoteTrigger c = false := h c (List.mem_cons_self c rest)
    simp only [quoteScan]
    rw [if_neg (by simp [hc])]
    exact ih _ (fun x hx => h x (List.mem_cons_of_mem c hx))

/-- The counting invariant of the scan: the escape buffer, once it
exists, holds exactly twice as many escapable characters as the scanned
input, because every escapable input character lands in it as a backslash
pair and nothing else escapable is ever appended. -/
lemma quoteScan_cnt (l : List Char) : ∀ pre esc q,
    (esc = none → cntEsc pre = 0) →
    (∀ e, esc = some e → cntEsc e = 2 * cntEsc pre) →
    ((quoteScan pre esc q l).1 = none → cntEsc (pre ++ l) = 0) ∧
    (∀ e, (quoteScan pre esc q l).1 = some e → cntEsc e = 2 * cntEsc (pre ++ l)) := by
  induction l with
  | nil =>
    intro pre esc q h0 h1
    simpa only [quoteScan, List.append_nil] using ⟨h0, h1⟩
  | cons c rest ih =>
    intro pre esc q h0 h1
    have happ : pre ++ c :: rest = (pre ++ [c]) ++ rest := by simp
    have hbs : escapable '\\' = true := by decide
    simp only [quoteScan]
    by_cases ht : quoteTrigger c = true
    · rw [if_pos ht]
      by_cases he : escapable c = true
      · rw [if_pos he, happ]
        refine ih (pre ++ [c]) _ _ (fun h => Option.noConfusion h) ?_
        intro e he'
        injection he' with he''
        subst he''
        have hc1 : cntEsc (pre ++ [c]) = cntEsc pre + 1 := by
          simp [cntEsc_append, cntEsc, he]
        cases esc with
        | none =>
          have hpre := h0 rfl
          simp only [Option.getD]
          rw [cntEsc_append, hc1, hpre]
          simp [cntEsc, he, hbs]
        | some e0 =>
          have he0 := h1 e0 rfl
          simp only [Option.getD]
          rw [cntEsc_append, hc1, he0]
          have : cntEsc ['\\', c] = 2 := by simp [cntEsc, he, hbs]
          rw [this]
          ring
      · rw [if_neg he, happ]
        have hc0 : cntEsc (pre ++ [c]) = cntEsc pre := by
          simp [cntEsc_append, cntEsc, he]
        refine ih (pre ++ [c]) _ _ (fun h => by rw [hc0]; exact h0 h) ?_
        intro e he'
        rw [hc0]
        exact h1 e he'
    · rw [if_neg ht]
      have he : escapable c = false := by
        cases hec : escapable c
        · rfl
        · exact absurd (escapable_trigger c hec) ht
      have hc0 : cntEsc (pre ++ [c]) = cntEsc pre := by
        simp [cntEsc_append, cntEsc, he]
      cases esc with
      | some e0 =>
        rw [happ]
        refine ih (pre ++ [c]) _ _ (fun h => Option.noConfusion h) ?_
        intro e he'
        injection he' with he''
        subst he''
        have he0 := h1 e0 rfl
        rw [cntEsc_append, hc0, he0]
        simp [cntEsc, he]
      | none =>
        rw [happ]
        refine ih (pre ++ [c]) _ _ (fun _ => by rw [hc0]; exact h0 rfl) ?_
        intro e he'
        exact Option.noConfusion he'

/-- C8: the quoter returns its input unchanged exactly when the input is
non-empty and contains no control character, no DEL, and no delimiter:
the clean scan leaves the quote flag unset, while any offending character
raises it and the quoted result can never coincide with the input, by a
length argument when no escape buffer exists and by the escapable
character count otherwise. -/
theorem c8_quote_identity_iff (s : String) :
    hthvQuote s = s ↔
      (s ≠ "" ∧ ∀ c ∈ s.data, ¬(c.toNat ≤ 32 ∨ delimiters c = true ∨ c.toNat = 127)) := by
  constructor
  · intro h
    by_cases hs : s = ""
    · subst hs
      rw [hthvQuote] at h
      simp only [if_pos rfl] at h
      exact absurd h (by decide)
    · refine ⟨hs, ?_⟩
      intro c hc habs
      have htrig : quoteTrigger c = true := by
        rcases habs with h1 | h1 | h1 <;> simp [quoteTrigger, h1]
      have hq : (quoteScan [] none false s.data).2 = true :=
        quoteScan_q_of_trigger s.data [] none false ⟨c, hc, htrig⟩
      rw [hthvQuote, if_neg hs, if_pos hq] at h
      cases hesc : (quoteScan [] none false s.data).1 with
      | none =>
        rw [hesc] at h
        have hdata : '"' :: s.data ++ ['"'] = s.data := congrArg String.data h
        have hlen := congrArg List.length hdata
        simp at hlen
        omega
      | some e =>
        have hcnt := (quoteScan_cnt s.data [] none false
          (fun _ => rfl) (fun e h => Option.noConfusion h)).2 e hesc
        simp only [List.nil_append] at hcnt
        rw [hesc] at h
        have hdata : s.data = '"' :: e ++ ['"'] := (congrArg String.data h).symm
        have hsc : cntEsc s.data = 1 + cntEsc e + 1 := by
          rw [hdata]
          have h2 : escapable '"' = true := by decide
          simp [cntEsc, cntEsc_append, List.countP_cons, h2]
          omega
        omega
  · rintro ⟨hs, hclean⟩
    have h2 : ∀ c ∈ s.data, quoteTrigger c = false := by
      intro c hc
      have hnot := hclean c hc
      push_neg at hnot
      obtain ⟨n1, n2, n3⟩ := hnot
      have n2' : delimiters c = false := by simpa using n2
      simp [quoteTrigger, n1, n2', n3]
    rw [hthvQuote, if_neg hs, quoteScan_clean s.data [] h2]
    simp
